import Mathlib

/-!
Verification of the emgraph knowledge-graph embedding library's evaluation
protocol, metric functions, parameter-grid engine, data splitting, the
DistMult scoring function and the `getAdj2` neighbourhood helper.

The evaluation-protocol functions (`generate_corruptions_for_eval`,
`evaluate_performance`, the metric functions, the grid engine, the param
hash and `train_test_split_no_unseen`) live in
`emgraph/evaluation/protocol.py`, which is not part of the source tree
available here; only its test-suite
(`tests/emgraph/evaluation/test_protocol.py`) is.  Those operations are
therefore modelled from the specification, with the enumeration orders and
concrete expectations pinned by the assertions of the test-suite.
`DistMult._fn` (`emgraph/models/DistMult.py`) and `getAdj2`
(`helperFunctions/getAdjacents.py`) are embedded directly from their
sources.
-/

/-- An index-form triple (subject, predicate, object). -/
abbrev Triple := ℕ × ℕ × ℕ

/-- The corruption sides accepted by the evaluation protocol:
`'s'`, `'o'` and the joint default `'s,o'`. -/
inductive CorruptSide where
  | s : CorruptSide
  | o : CorruptSide
  | so : CorruptSide
deriving DecidableEq

/-- Modelled from the spec (§4.2 Generate-for-eval) and pinned by
`test_generate_corruptions_for_eval`: for the requested side the
candidates enumerate every entity of the pool as replacement value.  The
test asserts that for side `'s,o'` the object-corruption block
`[s, p, e]` comes first, followed by the subject-corruption block
`[e, p, o]`. -/
def eval_candidates (x : Triple) (pool : List ℕ) : CorruptSide → List Triple
  | CorruptSide.o => pool.map (fun e => (x.1, x.2.1, e))
  | CorruptSide.s => pool.map (fun e => (e, x.2.1, x.2.2))
  | CorruptSide.so =>
      pool.map (fun e => (x.1, x.2.1, e)) ++ pool.map (fun e => (e, x.2.1, x.2.2))

/-- Modelled from the spec (§4.2): enumerate the candidates for the
requested side, then remove any candidate that exactly matches a triple
present in the filter set ("filtered" evaluation; an empty filter list is
"raw" evaluation). -/
def generate_corruptions_for_eval (x : Triple) (pool : List ℕ)
    (filterTriples : List Triple) (side : CorruptSide) : List Triple :=
  (eval_candidates x pool side).filter (fun c => decide (c ∉ filterTriples))

/-- Modelled from the spec (§4.3): the rank of a positive triple among a
candidate list is 1 + the number of candidates scoring at least as well
(ties count as better, the conservative tie-break). -/
def rank_of (score : Triple → ℚ) (x : Triple) (cands : List Triple) : ℕ :=
  1 + cands.countP (fun c => decide (score x ≤ score c))

/-- Modelled from the spec (§4.3 Ranking Evaluator): one rank per test
triple and requested side.  In the default protocol (`'s,o'`) both sides
of each triple are evaluated, each against its own side's corruptions,
which is what makes the exact MR equality asserted by
`test_evaluate_performance_default_protocol_without_filter` hold. -/
def evaluate_performance (score : Triple → ℚ) (tests : List Triple)
    (pool : List ℕ) (filterTriples : List Triple) : CorruptSide → List ℕ
  | CorruptSide.s =>
      tests.map (fun t => rank_of score t
        (generate_corruptions_for_eval t pool filterTriples CorruptSide.s))
  | CorruptSide.o =>
      tests.map (fun t => rank_of score t
        (generate_corruptions_for_eval t pool filterTriples CorruptSide.o))
  | CorruptSide.so =>
      tests.flatMap (fun t =>
        [rank_of score t (generate_corruptions_for_eval t pool filterTriples CorruptSide.o),
         rank_of score t (generate_corruptions_for_eval t pool filterTriples CorruptSide.s)])

/-- Modelled from the spec (§4.4): MR is the arithmetic mean of the ranks. -/
def mr_score (ranks : List ℕ) : ℚ :=
  (ranks.map (fun r : ℕ => (r : ℚ))).sum / (ranks.length : ℚ)

/-- Modelled from the spec (§4.4): MRR is the mean of the reciprocal ranks. -/
def mrr_score (ranks : List ℕ) : ℚ :=
  (ranks.map (fun r : ℕ => 1 / (r : ℚ))).sum / (ranks.length : ℚ)

/-- Modelled from the spec (§4.4): Hits@N is the fraction of ranks ≤ N. -/
def hits_at_n_score (ranks : List ℕ) (n : ℕ) : ℚ :=
  ((ranks.countP (fun r => decide (r ≤ n)) : ℕ) : ℚ) / (ranks.length : ℚ)

/-- Modelled from the spec (§4.1 Mapping Builder): entity and relation
mappings assign dense indices in order of first appearance, scanning each
triple's subject, then object (entities) and predicate (relations).  The
mapping is represented by the list of identifiers; the index of an
identifier is its position in the list. -/
def addUnique (l : List String) (s : String) : List String :=
  if s ∈ l then l else l ++ [s]

/-- Modelled from the spec (§4.1): build the (relations, entities)
mappings from raw string triples by first appearance. -/
def create_mappings (X : List (String × String × String)) :
    List String × List String :=
  X.foldl (fun m t =>
    (addUnique m.1 t.2.1, addUnique (addUnique m.2 t.1) t.2.2)) ([], [])

/-- Modelled from the spec (§3, and `test_to_idx`): convert raw triples to
index form through the mappings. -/
def to_idx (X : List (String × String × String))
    (rels ents : List String) : List Triple :=
  X.map (fun t => (ents.indexOf t.1, rels.indexOf t.2.1, ents.indexOf t.2.2))

/-- C3 counterexample: at the input of `test_generate_corruptions_for_eval`
(triple `[0,0,1]`, all 8 entities), the joint `'s,o'` corruption output is
NOT the subject-corruption block followed by the object-corruption block:
the object-corruption block comes first. -/
theorem claim_C3_counterexample :
    generate_corruptions_for_eval (0, 0, 1) [0, 1, 2, 3, 4, 5, 6, 7] [] CorruptSide.so ≠
      generate_corruptions_for_eval (0, 0, 1) [0, 1, 2, 3, 4, 5, 6, 7] [] CorruptSide.s ++
        generate_corruptions_for_eval (0, 0, 1) [0, 1, 2, 3, 4, 5, 6, 7] [] CorruptSide.o := by
  decide

/-- C3 (amended): for every index triple, entity pool and filter set, when
`generate_corruptions_for_eval` is asked to corrupt both sides its output
is the concatenation of the object-corruption candidates followed by the
subject-corruption candidates, with the object-corruption block first. -/
theorem claim_C3_amended (x : Triple) (pool : List ℕ) (filt : List Triple) :
    generate_corruptions_for_eval x pool filt CorruptSide.so =
      generate_corruptions_for_eval x pool filt CorruptSide.o ++
        generate_corruptions_for_eval x pool filt CorruptSide.s := by
  simp [generate_corruptions_for_eval, eval_candidates, List.filter_append]

/-- C4: for the five-triple example, the first-appearance mappings send
`a,b,c,d,e,f,h,l` to `0..7` and `x,y` to `0,1`, the triple `[a,x,b]` maps
to `[0,0,1]`, and object-corruption of `[0,0,1]` against all 8 entities
yields exactly the candidates `[0,0,0] .. [0,0,7]`, i.e. 8 candidates. -/
theorem claim_C4_object_corruption_concrete :
    create_mappings
        [("a", "x", "b"), ("c", "x", "d"), ("e", "x", "f"), ("b", "y", "h"), ("a", "y", "l")] =
      (["x", "y"], ["a", "b", "c", "d", "e", "f", "h", "l"]) ∧
    to_idx [("a", "x", "b"), ("c", "x", "d"), ("e", "x", "f"), ("b", "y", "h"), ("a", "y", "l")]
        ["x", "y"] ["a", "b", "c", "d", "e", "f", "h", "l"] =
      [(0, 0, 1), (2, 0, 3), (4, 0, 5), (1, 1, 6), (0, 1, 7)] ∧
    generate_corruptions_for_eval (0, 0, 1) (List.range 8) [] CorruptSide.o =
      [(0, 0, 0), (0, 0, 1), (0, 0, 2), (0, 0, 3), (0, 0, 4), (0, 0, 5), (0, 0, 6), (0, 0, 7)] ∧
    (generate_corruptions_for_eval (0, 0, 1) (List.range 8) [] CorruptSide.o).length = 8 := by
  refine ⟨by decide, by decide, by decide, by decide⟩

/-- C5 counterexample: for triple `[0,0,1]`, pool `{0,1,2,3}`,
side = object and filter set `{[1,0,1],[2,0,1]}`, the two filter triples
do not occur among the object-side candidates at all, so filtering removes
nothing: all 4 candidates remain, not 2. -/
theorem claim_C5_counterexample :
    generate_corruptions_for_eval (0, 0, 1) [0, 1, 2, 3] [(1, 0, 1), (2, 0, 1)] CorruptSide.o =
      [(0, 0, 0), (0, 0, 1), (0, 0, 2), (0, 0, 3)] ∧
    ¬ (generate_corruptions_for_eval (0, 0, 1) [0, 1, 2, 3] [(1, 0, 1), (2, 0, 1)]
          CorruptSide.o).length = 2 := by
  decide

/-- C5 (amended): for triple `[0,0,1]`, pool `{0,1,2,3}` and filter set
`{[1,0,1],[2,0,1]}`, it is subject-side corruption that the filter bites
on: filtering removes exactly the two filter triples from the 4 enumerated
subject-side candidates, leaving exactly the 2 candidates `[0,0,1]` and
`[3,0,1]`. -/
theorem claim_C5_amended :
    generate_corruptions_for_eval (0, 0, 1) [0, 1, 2, 3] [(1, 0, 1), (2, 0, 1)] CorruptSide.s =
      [(0, 0, 1), (3, 0, 1)] ∧
    (generate_corruptions_for_eval (0, 0, 1) [0, 1, 2, 3] [(1, 0, 1), (2, 0, 1)]
        CorruptSide.s).length = 2 ∧
    eval_candidates (0, 0, 1) [0, 1, 2, 3] CorruptSide.s =
      [(0, 0, 1), (1, 0, 1), (2, 0, 1), (3, 0, 1)] := by
  decide

/-- Interleaving two per-item results is a permutation of the two blocks
concatenated. -/
theorem map_append_perm_flatMap_pair {α β : Type} (f g : α → β) (l : List α) :
    (l.map f ++ l.map g).Perm (l.flatMap fun t => [f t, g t]) := by
  induction l with
  | nil => simp
  | cons a l ih =>
      simp only [List.map_cons, List.flatMap_cons, List.cons_append, List.nil_append]
      exact List.Perm.cons (f a) (List.Perm.trans List.perm_middle (List.Perm.cons _ ih))

/-- C1: for the same scorer, test triples, candidate pool and filter set,
evaluating with `corrupt_side='o'` and `corrupt_side='s'` separately and
concatenating the two rank sequences yields exactly the same MR and the
same MRR as a single joint `'s,o'` (default-protocol) evaluation: the two
rank lists are permutations of each other. -/
theorem claim_C1_separate_joint_equivalence (score : Triple → ℚ)
    (tests : List Triple) (pool : List ℕ) (filt : List Triple) :
    mr_score (evaluate_performance score tests pool filt CorruptSide.o ++
        evaluate_performance score tests pool filt CorruptSide.s) =
      mr_score (evaluate_performance score tests pool filt CorruptSide.so) ∧
    mrr_score (evaluate_performance score tests pool filt CorruptSide.o ++
        evaluate_performance score tests pool filt CorruptSide.s) =
      mrr_score (evaluate_performance score tests pool filt CorruptSide.so) := by
  have hperm :
      (evaluate_performance score tests pool filt CorruptSide.o ++
        evaluate_performance score tests pool filt CorruptSide.s).Perm
        (evaluate_performance score tests pool filt CorruptSide.so) :=
    map_append_perm_flatMap_pair _ _ tests
  constructor
  · unfold mr_score
    rw [List.Perm.sum_eq (List.Perm.map (fun r : ℕ => (r : ℚ)) hperm),
      List.Perm.length_eq hperm]
  · unfold mrr_score
    rw [List.Perm.sum_eq (List.Perm.map (fun r : ℕ => 1 / (r : ℚ)) hperm),
      List.Perm.length_eq hperm]

/-- C8: for every non-empty list of positive (1-based) ranks, the MRR lies
in the half-open interval (0, 1], the MR is at least 1, and Hits@N is
monotonically non-decreasing in N. -/
theorem claim_C8_metric_bounds (ranks : List ℕ) (hne : ranks ≠ [])
    (hpos : ∀ r ∈ ranks, 1 ≤ r) :
    (0 < mrr_score ranks ∧ mrr_score ranks ≤ 1) ∧
    1 ≤ mr_score ranks ∧
    ∀ m n : ℕ, m ≤ n → hits_at_n_score ranks m ≤ hits_at_n_score ranks n := by
  have hL : 0 < (ranks.length : ℚ) := by
    have h0 : 0 < ranks.length := List.length_pos.mpr hne
    exact_mod_cast h0
  refine ⟨⟨?_, ?_⟩, ?_, ?_⟩
  · unfold mrr_score
    apply div_pos _ hL
    apply List.sum_pos
    · intro x hx
      obtain ⟨r, hr, rfl⟩ := List.mem_map.mp hx
      have h1 : (0 : ℚ) < (r : ℚ) := by
        exact_mod_cast Nat.lt_of_lt_of_le Nat.zero_lt_one (hpos r hr)
      positivity
    · simpa using hne
  · unfold mrr_score
    rw [div_le_one hL]
    have h := List.sum_le_card_nsmul (ranks.map (fun r : ℕ => 1 / (r : ℚ))) 1 ?_
    · simpa using h
    · intro x hx
      obtain ⟨r, hr, rfl⟩ := List.mem_map.mp hx
      have h1 : (1 : ℚ) ≤ (r : ℚ) := by exact_mod_cast hpos r hr
      rw [div_le_one (lt_of_lt_of_le one_pos h1)]
      exact h1
  · unfold mr_score
    rw [one_le_div hL]
    have h := List.card_nsmul_le_sum (ranks.map (fun r : ℕ => (r : ℚ))) 1 ?_
    · simpa using h
    · intro x hx
      obtain ⟨r, hr, rfl⟩ := List.mem_map.mp hx
      exact_mod_cast hpos r hr
  · intro m n hmn
    unfold hits_at_n_score
    have hc : ranks.countP (fun r => decide (r ≤ m)) ≤
        ranks.countP (fun r => decide (r ≤ n)) := by
      apply List.countP_mono_left
      intro x _ hx
      simp only [decide_eq_true_eq] at hx ⊢
      exact le_trans hx hmn
    have hcq : ((ranks.countP (fun r => decide (r ≤ m)) : ℕ) : ℚ) ≤
        ((ranks.countP (fun r => decide (r ≤ n)) : ℕ) : ℚ) := by exact_mod_cast hc
    exact (div_le_div_iff_of_pos_right hL).mpr hcq

/-- Witness for C8 at the concrete rank list `[1, 2, 3]`. -/
theorem claim_C8_metric_bounds_witness :
    (([1, 2, 3] : List ℕ) ≠ [] ∧ ∀ r ∈ ([1, 2, 3] : List ℕ), 1 ≤ r) ∧
    ((0 < mrr_score [1, 2, 3] ∧ mrr_score [1, 2, 3] ≤ 1) ∧
      1 ≤ mr_score [1, 2, 3] ∧
      ∀ m n : ℕ, m ≤ n → hits_at_n_score [1, 2, 3] m ≤ hits_at_n_score [1, 2, 3] n) :=
  ⟨⟨by decide, by decide⟩, claim_C8_metric_bounds [1, 2, 3] (by decide) (by decide)⟩

/-- Embedded from `DistMult._fn` (src/emgraph/models/DistMult.py):
per-row trilinear dot product, `tf.reduce_sum(e_s * e_p * e_o, axis=1)`
restricted to one row: elementwise product of the three embedding vectors,
then summed. -/
def distmult_row_score (es ep eo : List ℚ) : ℚ :=
  (List.zipWith (· * ·) (List.zipWith (· * ·) es ep) eo).sum

/-- Embedded from `DistMult._fn`: the batch scoring function
`tf.reduce_sum(e_s * e_p * e_o, axis=1)`, mapping rows of subject,
predicate and object embeddings to one score per row. -/
def DistMult_fn : List (List ℚ) → List (List ℚ) → List (List ℚ) → List ℚ
  | es :: ss, ep :: ps, eo :: os => distmult_row_score es ep eo :: DistMult_fn ss ps os
  | _, _, _ => []

/-- The per-row DistMult score is symmetric in subject and object. -/
theorem distmult_row_score_comm (s p o : List ℚ) :
    distmult_row_score s p o = distmult_row_score o p s := by
  induction s generalizing p o with
  | nil => cases p <;> cases o <;> simp [distmult_row_score]
  | cons a s ih =>
      cases p with
      | nil => cases o <;> simp [distmult_row_score]
      | cons b p =>
          cases o with
          | nil => simp [distmult_row_score]
          | cons c o =>
              have h := ih p o
              simp only [distmult_row_score, List.zipWith_cons_cons, List.sum_cons] at h ⊢
              rw [show a * b * c = c * b * a by ring, h]

/-- C9: the DistMult scoring function is symmetric in subject and object:
for all embedding batches, `_fn e_s e_p e_o = _fn e_o e_p e_s`, so the
model assigns the same score to `(s, p, o)` and `(o, p, s)`. -/
theorem claim_C9_distmult_symmetric (e_s e_p e_o : List (List ℚ)) :
    DistMult_fn e_s e_p e_o = DistMult_fn e_o e_p e_s := by
  induction e_s generalizing e_p e_o with
  | nil => cases e_p <;> cases e_o <;> simp [DistMult_fn]
  | cons s ss ih =>
      cases e_p with
      | nil => cases e_o <;> simp [DistMult_fn]
      | cons p ps =>
          cases e_o with
          | nil => simp [DistMult_fn]
          | cons o os =>
              simp only [DistMult_fn, distmult_row_score_comm s p o, ih ps os]

/-- A NetworkX-style graph for `getAdj2`: the node set together with the
adjacency function (`graph[node]`). -/
structure NXGraph where
  nodes : List ℕ
  adj : ℕ → List ℕ

/-- `graph.nbunch_iter(input_list)`: the members of the input list that
are nodes of the graph, in input order. -/
def nbunchIter (g : NXGraph) (input : List ℕ) : List ℕ :=
  input.filter (fun v => decide (v ∈ g.nodes))

/-- One neighbour step of `getAdj2`'s inner loop body
(src/helperFunctions/getAdjacents.py): append the neighbour to both
`full_list` and `output_list` unless it is already in `full_list`. -/
def adjPassStep (st : List ℕ × List ℕ) (nb : ℕ) : List ℕ × List ℕ :=
  if nb ∈ st.1 then st else (st.1 ++ [nb], st.2 ++ [nb])

/-- Process all neighbours of one node. -/
def adjPassNode (g : NXGraph) (st : List ℕ × List ℕ) (node : ℕ) : List ℕ × List ℕ :=
  (g.adj node).foldl adjPassStep st

/-- One iteration of `getAdj2`'s `while` loop: reset `output_list` and
scan every neighbour of every input node. -/
def adjPass (g : NXGraph) (input : List ℕ) (full : List ℕ) : List ℕ × List ℕ :=
  (nbunchIter g input).foldl (adjPassNode g) (full, [])

/-- Run the `while` loop `n` times, threading `full_list` through and
keeping the last pass's `output_list`. -/
def adjLoop (g : NXGraph) (input : List ℕ) : ℕ → List ℕ × List ℕ → List ℕ × List ℕ
  | 0, st => st
  | n + 1, st => adjLoop g input n (adjPass g input st.1)

/-- Embedded from `getAdj2` (src/helperFunctions/getAdjacents.py): run the
hop loop `n` times starting from an empty `full_list` and return the final
`output_list`.  For `n = 0` the Python function raises a `NameError`
(`output_list` is never assigned), modelled as `none`. -/
def getAdj2 (g : NXGraph) (input : List ℕ) (n : ℕ) : Option (List ℕ) :=
  if n = 0 then none else some (adjLoop g input n ([], [])).2

/-- `adjPassStep` never removes elements from `full_list`. -/
theorem adjPassStep_mono {a : ℕ} {st : List ℕ × List ℕ} (nb : ℕ) (h : a ∈ st.1) :
    a ∈ (adjPassStep st nb).1 := by
  unfold adjPassStep
  split
  · exact h
  · exact List.mem_append_left _ h

/-- Folding `adjPassStep` never removes elements from `full_list`. -/
theorem foldl_adjPassStep_mono {a : ℕ} (ns : List ℕ) (st : List ℕ × List ℕ)
    (h : a ∈ st.1) : a ∈ (ns.foldl adjPassStep st).1 := by
  induction ns generalizing st with
  | nil => exact h
  | cons nb ns ih => exact ih _ (adjPassStep_mono nb h)

/-- After folding `adjPassStep` over a neighbour list, every neighbour of
that list is in `full_list`. -/
theorem foldl_adjPassStep_covers {a : ℕ} (ns : List ℕ) (st : List ℕ × List ℕ)
    (h : a ∈ ns) : a ∈ (ns.foldl adjPassStep st).1 := by
  induction ns generalizing st with
  | nil => cases h
  | cons nb ns ih =>
      rcases List.mem_cons.mp h with rfl | h
      · rw [List.foldl_cons]
        apply foldl_adjPassStep_mono
        unfold adjPassStep
        split
        · assumption
        · exact List.mem_append_right _ (List.mem_singleton.mpr rfl)
      · exact ih _ h

/-- `adjPassNode` never removes elements from `full_list`. -/
theorem adjPassNode_mono {a : ℕ} (g : NXGraph) (st : List ℕ × List ℕ) (node : ℕ)
    (h : a ∈ st.1) : a ∈ (adjPassNode g st node).1 :=
  foldl_adjPassStep_mono _ _ h

/-- Folding `adjPassNode` over a node list never removes elements from
`full_list`. -/
theorem foldl_adjPassNode_mono {a : ℕ} (g : NXGraph) (nodes : List ℕ)
    (st : List ℕ × List ℕ) (h : a ∈ st.1) :
    a ∈ (nodes.foldl (adjPassNode g) st).1 := by
  induction nodes generalizing st with
  | nil => exact h
  | cons x xs ih => exact ih _ (adjPassNode_mono g st x h)

/-- Folding `adjPassNode` over a node list puts every neighbour of every
listed node into `full_list`. -/
theorem foldl_adjPassNode_covers (g : NXGraph) (nodes : List ℕ)
    (st : List ℕ × List ℕ) {node nb : ℕ} (hnode : node ∈ nodes)
    (hnb : nb ∈ g.adj node) : nb ∈ (nodes.foldl (adjPassNode g) st).1 := by
  induction nodes generalizing st with
  | nil => cases hnode
  | cons x xs ih =>
      rcases List.mem_cons.mp hnode with rfl | h
      · exact foldl_adjPassNode_mono g xs _ (foldl_adjPassStep_covers _ _ hnb)
      · exact ih _ h

/-- After one pass, every neighbour of every (graph-member) input node is
in `full_list`. -/
theorem adjPass_covers (g : NXGraph) (input : List ℕ) (full : List ℕ)
    {node nb : ℕ} (hnode : node ∈ nbunchIter g input) (hnb : nb ∈ g.adj node) :
    nb ∈ (adjPass g input full).1 :=
  foldl_adjPassNode_covers g (nbunchIter g input) (full, []) hnode hnb

/-- A neighbour already recorded leaves the state unchanged. -/
theorem adjPassStep_fixed {st : List ℕ × List ℕ} {nb : ℕ} (h : nb ∈ st.1) :
    adjPassStep st nb = st := if_pos h

/-- Folding `adjPassStep` over fully recorded neighbours is the identity. -/
theorem foldl_adjPassStep_fixed (ns : List ℕ) (st : List ℕ × List ℕ)
    (h : ∀ nb ∈ ns, nb ∈ st.1) : ns.foldl adjPassStep st = st := by
  induction ns with
  | nil => rfl
  | cons nb ns ih =>
      rw [List.foldl_cons, adjPassStep_fixed (h nb (List.mem_cons_self nb ns))]
      exact ih fun x hx => h x (List.mem_cons_of_mem nb hx)

/-- A node whose neighbours are all recorded leaves the state unchanged. -/
theorem adjPassNode_fixed (g : NXGraph) (st : List ℕ × List ℕ) (node : ℕ)
    (h : ∀ nb ∈ g.adj node, nb ∈ st.1) : adjPassNode g st node = st :=
  foldl_adjPassStep_fixed _ _ h

/-- Folding `adjPassNode` over nodes whose neighbours are all recorded is
the identity. -/
theorem foldl_adjPassNode_fixed (g : NXGraph) (nodes : List ℕ)
    (st : List ℕ × List ℕ) (h : ∀ node ∈ nodes, ∀ nb ∈ g.adj node, nb ∈ st.1) :
    nodes.foldl (adjPassNode g) st = st := by
  induction nodes with
  | nil => rfl
  | cons x xs ih =>
      rw [List.foldl_cons, adjPassNode_fixed g st x (h x (List.mem_cons_self x xs))]
      exact ih fun node hn => h node (List.mem_cons_of_mem x hn)

/-- A pass over a `full_list` already containing every direct neighbour
produces an empty `output_list` and leaves `full_list` unchanged. -/
theorem adjPass_fixed (g : NXGraph) (input : List ℕ) (full : List ℕ)
    (h : ∀ node ∈ nbunchIter g input, ∀ nb ∈ g.adj node, nb ∈ full) :
    adjPass g input full = (full, []) :=
  foldl_adjPassNode_fixed g (nbunchIter g input) (full, []) h

/-- Once `full_list` covers all direct neighbours, every further pass of
the loop keeps `full_list` and returns an empty `output_list`. -/
theorem adjLoop_fixed (g : NXGraph) (input : List ℕ) (full : List ℕ)
    (h : ∀ node ∈ nbunchIter g input, ∀ nb ∈ g.adj node, nb ∈ full) :
    ∀ k, 1 ≤ k → ∀ out, adjLoop g input k (full, out) = (full, []) := by
  intro k
  induction k with
  | zero => intro hk; exact (Nat.not_succ_le_zero 0 hk).elim
  | succ k ih =>
      intro _ out
      rw [show adjLoop g input (k + 1) (full, out) =
            adjLoop g input k (adjPass g input full) from rfl]
      rw [adjPass_fixed g input full h]
      cases k with
      | zero => rfl
      | succ k2 => exact ih (Nat.succ_le_succ (Nat.zero_le k2)) []

/-- C10: for every graph and input node list, `getAdj2` with hop count
`n ≥ 2` returns the empty list: each pass rescans the unchanged input
list, so after the first pass all direct neighbours are in `full_list` and
the final pass's freshly reset `output_list` stays empty. -/
theorem claim_C10_getAdj2_empty (g : NXGraph) (input : List ℕ) (n : ℕ)
    (h : 2 ≤ n) : getAdj2 g input n = some [] := by
  obtain ⟨m, rfl⟩ : ∃ m, n = m + 2 := ⟨n - 2, by omega⟩
  unfold getAdj2
  rw [if_neg (by omega)]
  have hcover : ∀ node ∈ nbunchIter g input, ∀ nb ∈ g.adj node,
      nb ∈ (adjPass g input []).1 :=
    fun node hn nb hnb => adjPass_covers g input [] hn hnb
  have h1 : adjLoop g input (m + 2) (([], []) : List ℕ × List ℕ) =
      adjLoop g input (m + 1) (adjPass g input []) := rfl
  have h2 : adjLoop g input (m + 1) (adjPass g input []) =
      ((adjPass g input []).1, []) := by
    rw [show adjPass g input [] =
          ((adjPass g input []).1, (adjPass g input []).2) from rfl]
    exact adjLoop_fixed g input (adjPass g input []).1 hcover (m + 1)
      (Nat.succ_le_succ (Nat.zero_le m)) (adjPass g input []).2
  rw [h1, h2]

/-- Witness for C10: a concrete two-node graph, evaluated at `n = 2`. -/
theorem claim_C10_getAdj2_empty_witness :
    2 ≤ 2 ∧ getAdj2 ⟨[0, 1], fun _ => [0, 1]⟩ [0] 2 = some [] :=
  ⟨by decide, claim_C10_getAdj2_empty ⟨[0, 1], fun _ => [0, 1]⟩ [0] 2 (by decide)⟩

/-- A scalar parameter value of a hyperparameter dictionary. -/
inductive Val where
  | int : ℤ → Val
  | float : ℚ → Val
  | str : String → Val
  | bool : Bool → Val
  | none : Val
deriving DecidableEq

/-- A fully resolved hyperparameter set, with the nested sub-dictionaries
(`loss_params`, `embedding_model_params`, `regularizer_params`,
`optimizer_params`) as association lists.  Modelled from the spec (§3
Parameter Record) and the dictionaries used throughout
`test_protocol.py`. -/
structure Params where
  batches_count : Val
  epochs : Val
  k : Val
  eta : Val
  loss : String
  loss_params : List (String × Val)
  embedding_model_params : List (String × Val)
  regularizer : Option String
  regularizer_params : List (String × Val)
  optimizer : String
  optimizer_params : List (String × Val)
  verbose : Bool
  model_name : String
deriving DecidableEq

/-- The outer key of a flattened parameter entry. -/
inductive FieldTag where
  | batches_count
  | epochs
  | k
  | eta
  | loss
  | loss_params
  | embedding_model_params
  | regularizer
  | regularizer_params
  | optimizer
  | optimizer_params
  | verbose
  | model_name
deriving DecidableEq

/-- Encode the `regularizer` value (`None` or a strategy name). -/
def regVal : Option String → Val
  | Option.none => Val.none
  | Option.some s => Val.str s

/-- Modelled from the spec (§4.5 Flatten/unflatten): the flat mapping
keyed by (outer, inner) path tuples, scalar leaves keyed by their outer
key alone. -/
def _flatten_nested_keys (p : Params) : List (FieldTag × Option String × Val) :=
  [(FieldTag.batches_count, Option.none, p.batches_count),
   (FieldTag.epochs, Option.none, p.epochs),
   (FieldTag.k, Option.none, p.k),
   (FieldTag.eta, Option.none, p.eta),
   (FieldTag.loss, Option.none, Val.str p.loss)]
  ++ p.loss_params.map (fun kv => (FieldTag.loss_params, Option.some kv.1, kv.2))
  ++ p.embedding_model_params.map
      (fun kv => (FieldTag.embedding_model_params, Option.some kv.1, kv.2))
  ++ [(FieldTag.regularizer, Option.none, regVal p.regularizer)]
  ++ p.regularizer_params.map
      (fun kv => (FieldTag.regularizer_params, Option.some kv.1, kv.2))
  ++ [(FieldTag.optimizer, Option.none, Val.str p.optimizer)]
  ++ p.optimizer_params.map
      (fun kv => (FieldTag.optimizer_params, Option.some kv.1, kv.2))
  ++ [(FieldTag.verbose, Option.none, Val.bool p.verbose),
      (FieldTag.model_name, Option.none, Val.str p.model_name)]

/-- The `loss_params` keys a given loss actually consumes (losses like
`nll` take no parameters). -/
def lossParamKeys (loss : String) : List String :=
  if loss = "pairwise" then ["margin"]
  else if loss = "absolute_margin" then ["margin"]
  else if loss = "self_adversarial" then ["margin", "alpha"]
  else []

/-- The `embedding_model_params` keys a given model consumes (from the
`register_model` declarations; unknown models consume none). -/
def modelParamKeys (model : String) : List String :=
  if model = "DistMult" then ["normalize_ent_emb", "negative_corruption_entities"]
  else if model = "TransE" then ["normalize_ent_emb", "negative_corruption_entities", "norm"]
  else []

/-- The `optimizer_params` keys a given optimizer consumes (`momentum` is
only read by the momentum optimizer). -/
def optimizerParamKeys (optimizer : String) : List String :=
  if optimizer = "momentum" then ["lr", "momentum"]
  else ["lr"]

/-- Modelled from the spec (§4.5 Remove-unused-params) and pinned by
`test_remove_unused_params`: drop every sub-parameter irrelevant to the
chosen loss/model/regularizer/optimizer, clearing `regularizer_params`
entirely unless `regularizer = 'LP'`. -/
def _remove_unused_params (p : Params) : Params :=
  { p with
    loss_params := p.loss_params.filter (fun kv => decide (kv.1 ∈ lossParamKeys p.loss)),
    embedding_model_params :=
      p.embedding_model_params.filter
        (fun kv => decide (kv.1 ∈ modelParamKeys p.model_name)),
    regularizer_params :=
      if p.regularizer = Option.some "LP" then
        p.regularizer_params.filter
          (fun kv => decide (kv.1 ∈ (["p", "lambda"] : List String)))
      else [],
    optimizer_params :=
      p.optimizer_params.filter
        (fun kv => decide (kv.1 ∈ optimizerParamKeys p.optimizer)) }

/-- Modelled from the spec (§4.5 Param hash): the canonical content hash
is the flattened, unused-params-removed representation itself (a perfect
content hash). -/
def _get_param_hash (p : Params) : List (FieldTag × Option String × Val) :=
  _flatten_nested_keys (_remove_unused_params p)

/-- Modelled from the spec (§4.5 Param history): the set of hashes seen so
far. -/
abbrev ParamHistory := List (List (FieldTag × Option String × Val))

/-- A fresh, empty parameter history. -/
def emptyHistory : ParamHistory := []

/-- Record a parameter set in the history (`ParamHistory.add`). -/
def historyAdd (p : Params) (h : ParamHistory) : ParamHistory :=
  _get_param_hash p :: h

/-- Membership test of the history (`__contains__`): by param hash. -/
def historyMem (p : Params) (h : ParamHistory) : Prop :=
  _get_param_hash p ∈ h

/-- Select the `regularizer_params` entries out of a flattened parameter
list. -/
def pickRegEntry : FieldTag × Option String × Val → Option (String × Val)
  | (FieldTag.regularizer_params, Option.some key, v) => Option.some (key, v)
  | _ => Option.none

/-- Mapped segments carrying a tag other than `regularizer_params`
contribute nothing to the extraction. -/
theorem filterMap_pickRegEntry_dead (l : List (String × Val))
    (mk : String × Val → FieldTag × Option String × Val)
    (hmk : ∀ kv, pickRegEntry (mk kv) = Option.none) :
    (l.map mk).filterMap pickRegEntry = [] := by
  induction l with
  | nil => rfl
  | cons kv l ih => simp [List.filterMap_cons, hmk kv, ih]

/-- The `regularizer_params` segment is extracted verbatim. -/
theorem filterMap_pickRegEntry_live (l : List (String × Val)) :
    (l.map fun kv => (FieldTag.regularizer_params, Option.some kv.1, kv.2)).filterMap
        pickRegEntry = l := by
  induction l with
  | nil => rfl
  | cons kv l ih => simp [List.filterMap_cons, pickRegEntry, ih]

/-- The `loss_params` segment contributes nothing to the extraction. -/
theorem filterMap_pickRegEntry_loss (l : List (String × Val)) :
    (l.map fun kv => (FieldTag.loss_params, Option.some kv.1, kv.2)).filterMap
        pickRegEntry = [] :=
  filterMap_pickRegEntry_dead l _ (fun _ => rfl)

/-- The `embedding_model_params` segment contributes nothing to the
extraction. -/
theorem filterMap_pickRegEntry_emb (l : List (String × Val)) :
    (l.map fun kv => (FieldTag.embedding_model_params, Option.some kv.1, kv.2)).filterMap
        pickRegEntry = [] :=
  filterMap_pickRegEntry_dead l _ (fun _ => rfl)

/-- The `optimizer_params` segment contributes nothing to the
extraction. -/
theorem filterMap_pickRegEntry_opt (l : List (String × Val)) :
    (l.map fun kv => (FieldTag.optimizer_params, Option.some kv.1, kv.2)).filterMap
        pickRegEntry = [] :=
  filterMap_pickRegEntry_dead l _ (fun _ => rfl)

/-- Extracting the `regularizer_params` entries from a flattened parameter
set recovers exactly its `regularizer_params` association list. -/
theorem regparams_of_flatten (p : Params) :
    (_flatten_nested_keys p).filterMap pickRegEntry = p.regularizer_params := by
  unfold _flatten_nested_keys
  rw [List.filterMap_append, List.filterMap_append, List.filterMap_append,
    List.filterMap_append, List.filterMap_append, List.filterMap_append,
    List.filterMap_append]
  rw [filterMap_pickRegEntry_loss, filterMap_pickRegEntry_emb,
    filterMap_pickRegEntry_live, filterMap_pickRegEntry_opt]
  simp [List.filterMap_cons, pickRegEntry]

/-- C6: a parameter set extended by an entry of `embedding_model_params`
that the chosen model does not consume hashes identically and is treated
as already present by the history once the original is added; two
parameter sets differing in the used numeric field
`regularizer_params.lambda` under `regularizer = 'LP'` hash differently
and are not deduplicated. -/
theorem claim_C6_param_hash_dedup (p : Params) (extraKey : String) (extraVal : Val)
    (hk : extraKey ∉ modelParamKeys p.model_name)
    (r : Params) (w v₁ v₂ : Val)
    (hreg : r.regularizer = Option.some "LP") (hv : v₁ ≠ v₂) :
    (_get_param_hash { p with embedding_model_params :=
          p.embedding_model_params ++ [(extraKey, extraVal)] } = _get_param_hash p
      ∧ ∀ hist : ParamHistory, historyMem { p with embedding_model_params :=
          p.embedding_model_params ++ [(extraKey, extraVal)] } (historyAdd p hist))
    ∧ (_get_param_hash { r with regularizer_params := [("p", w), ("lambda", v₁)] }
          ≠ _get_param_hash { r with regularizer_params := [("p", w), ("lambda", v₂)] }
      ∧ ¬ historyMem { r with regularizer_params := [("p", w), ("lambda", v₂)] }
          (historyAdd { r with regularizer_params := [("p", w), ("lambda", v₁)] }
            emptyHistory)) := by
  have hclean : _remove_unused_params { p with embedding_model_params :=
      p.embedding_model_params ++ [(extraKey, extraVal)] } = _remove_unused_params p := by
    simp [_remove_unused_params, List.filter_append, hk]
  have hhash : _get_param_hash { p with embedding_model_params :=
      p.embedding_model_params ++ [(extraKey, extraVal)] } = _get_param_hash p := by
    unfold _get_param_hash
    rw [hclean]
  have hne : _get_param_hash { r with regularizer_params := [("p", w), ("lambda", v₁)] }
      ≠ _get_param_hash { r with regularizer_params := [("p", w), ("lambda", v₂)] } := by
    intro heq
    have h2 := congrArg (List.filterMap pickRegEntry) heq
    rw [_get_param_hash, _get_param_hash, regparams_of_flatten, regparams_of_flatten] at h2
    simp [_remove_unused_params, hreg] at h2
    exact hv h2
  refine ⟨⟨hhash, ?_⟩, hne, ?_⟩
  · intro hist
    unfold historyMem historyAdd
    rw [hhash]
    exact List.mem_cons_self _ _
  · intro hmem
    unfold historyMem historyAdd emptyHistory at hmem
    rcases List.mem_cons.mp hmem with h | h
    · exact hne h.symm
    · cases h

/-- The `params1` dictionary of `test_get_param_hash` / `test_param_hist`. -/
def testParams1 : Params :=
  { batches_count := Val.int 50
    epochs := Val.int 4000
    k := Val.int 200
    eta := Val.int 15
    loss := "nll"
    loss_params := [("margin", Val.int 2)]
    embedding_model_params := []
    regularizer := Option.some "LP"
    regularizer_params := [("p", Val.int 1), ("lambda", Val.float (1 / 100000))]
    optimizer := "adam"
    optimizer_params := [("lr", Val.float (1 / 1000))]
    verbose := false
    model_name := "ComplEx" }

/-- Witness for C6: `params1`/`params2`/`params3` of `test_get_param_hash`
(`params2` extends `embedding_model_params` by the unused entry
`useless = 2`; `params3` additionally changes
`regularizer_params.lambda` from `1e-5` to `1e-4`). -/
theorem claim_C6_param_hash_dedup_witness :
    ("useless" ∉ modelParamKeys testParams1.model_name ∧
      testParams1.regularizer = Option.some "LP" ∧
      Val.float (1 / 100000) ≠ Val.float (1 / 10000)) ∧
    ((_get_param_hash { testParams1 with embedding_model_params :=
          testParams1.embedding_model_params ++ [("useless", Val.int 2)] } =
            _get_param_hash testParams1
      ∧ ∀ hist : ParamHistory, historyMem { testParams1 with embedding_model_params :=
          testParams1.embedding_model_params ++ [("useless", Val.int 2)] }
            (historyAdd testParams1 hist))
    ∧ (_get_param_hash { testParams1 with regularizer_params :=
          [("p", Val.int 1), ("lambda", Val.float (1 / 100000))] }
          ≠ _get_param_hash { testParams1 with regularizer_params :=
          [("p", Val.int 1), ("lambda", Val.float (1 / 10000))] }
      ∧ ¬ historyMem { testParams1 with regularizer_params :=
            [("p", Val.int 1), ("lambda", Val.float (1 / 10000))] }
          (historyAdd { testParams1 with regularizer_params :=
            [("p", Val.int 1), ("lambda", Val.float (1 / 100000))] }
            emptyHistory))) :=
  ⟨⟨by decide, by decide, by norm_num⟩,
    claim_C6_param_hash_dedup testParams1 "useless" (Val.int 2) (by decide)
      testParams1 (Val.int 1) (Val.float (1 / 100000)) (Val.float (1 / 10000))
      (by decide) (by norm_num)⟩

/-- A hyperparameter grid after scalars-into-lists normalisation: every
leaf is a list of candidate values; nested sub-dictionaries recurse.
Modelled from the spec (§3 Hyperparameter Grid, §4.5). -/
inductive Grid where
  | leaf : List Val → Grid
  | node : List (String × Grid) → Grid

/-- A fully resolved parameter set produced by the grid enumerator:
every leaf holds one concrete value. -/
inductive ParamTree where
  | leaf : Val → ParamTree
  | node : List (String × ParamTree) → ParamTree

mutual

/-- The raw Cartesian product of the expanded grid — every combination
across all list-valued leaves, recursing into nested dicts — in
enumeration order.  This is the candidate stream that `_next_hyperparam`
iterates over before its param-hash deduplication. -/
def gridCombinations : Grid → List ParamTree
  | Grid.leaf vs => vs.map ParamTree.leaf
  | Grid.node kvs => (gridCombinationsList kvs).map ParamTree.node

/-- Cartesian product of the combinations of a keyed grid list. -/
def gridCombinationsList : List (String × Grid) → List (List (String × ParamTree))
  | [] => [[]]
  | (key, g) :: rest =>
      (gridCombinations g).flatMap
        (fun p => (gridCombinationsList rest).map (fun ps => (key, p) :: ps))

end

mutual

/-- The product of the sizes of the list-valued leaves of a grid. -/
def gridSize : Grid → ℕ
  | Grid.leaf vs => vs.length
  | Grid.node kvs => gridSizeList kvs

/-- The product of the leaf sizes of a keyed grid list. -/
def gridSizeList : List (String × Grid) → ℕ
  | [] => 1
  | (_, g) :: rest => gridSize g * gridSizeList rest

end

mutual

/-- Flatten a resolved parameter tree to (key path, value) pairs, the
nested analogue of `_flatten_nested_keys`. -/
def flattenPT : ParamTree → List (List String × Val)
  | ParamTree.leaf v => [([], v)]
  | ParamTree.node kvs => flattenPTList kvs

/-- Flatten a keyed list of resolved parameter trees. -/
def flattenPTList : List (String × ParamTree) → List (List String × Val)
  | [] => []
  | (key, p) :: rest =>
      (flattenPT p).map (fun e => (key :: e.1, e.2)) ++ flattenPTList rest

end

mutual

/-- The key paths of a grid's leaves, in enumeration order. -/
def pathsOf : Grid → List (List String)
  | Grid.leaf _ => [[]]
  | Grid.node kvs => pathsOfList kvs

/-- The key paths of a keyed grid list's leaves. -/
def pathsOfList : List (String × Grid) → List (List String)
  | [] => []
  | (key, g) :: rest => (pathsOf g).map (fun path => key :: path) ++ pathsOfList rest

end

mutual

/-- Whether every sub-dictionary of the grid has pairwise-distinct keys
(automatic for Python dicts). -/
def keysNodup : Grid → Bool
  | Grid.leaf _ => true
  | Grid.node kvs => decide (kvs.map Prod.fst).Nodup && keysNodupList kvs

/-- `keysNodup` over a keyed grid list. -/
def keysNodupList : List (String × Grid) → Bool
  | [] => true
  | (_, g) :: rest => keysNodup g && keysNodupList rest

end

/-- Length of a flatMap whose blocks all have the same length. -/
theorem length_flatMap_of_const {α β : Type} (l : List α) (f : α → List β) (n : ℕ)
    (h : ∀ a ∈ l, (f a).length = n) : (l.flatMap f).length = l.length * n := by
  induction l with
  | nil => simp
  | cons a l ih =>
      rw [List.flatMap_cons, List.length_append, h a (List.mem_cons_self a l),
        ih fun x hx => h x (List.mem_cons_of_mem a hx), List.length_cons,
        Nat.succ_mul, Nat.add_comm]

mutual

/-- The raw product has `gridSize` many combinations. -/
theorem gridCombinations_length : (g : Grid) → (gridCombinations g).length = gridSize g
  | Grid.leaf vs => by
      rw [show gridCombinations (Grid.leaf vs) = vs.map ParamTree.leaf from rfl,
        List.length_map]
      rfl
  | Grid.node kvs => by
      rw [show gridCombinations (Grid.node kvs) =
            (gridCombinationsList kvs).map ParamTree.node from rfl,
        List.length_map, gridCombinationsList_length kvs]
      rfl

/-- Keyed-list part of `gridCombinations_length`. -/
theorem gridCombinationsList_length :
    (kvs : List (String × Grid)) → (gridCombinationsList kvs).length = gridSizeList kvs
  | [] => rfl
  | (key, g) :: rest => by
      rw [show gridCombinationsList ((key, g) :: rest) =
            (gridCombinations g).flatMap
              (fun p => (gridCombinationsList rest).map (fun ps => (key, p) :: ps)) from rfl]
      rw [length_flatMap_of_const _ _ (gridCombinationsList rest).length
        (fun p _ => List.length_map _ _)]
      rw [gridCombinations_length g, gridCombinationsList_length rest]
      rfl

end

mutual

/-- Number of leaves of a grid. -/
def flatSize : Grid → ℕ
  | Grid.leaf _ => 1
  | Grid.node kvs => flatSizeList kvs

/-- Number of leaves of a keyed grid list. -/
def flatSizeList : List (String × Grid) → ℕ
  | [] => 0
  | (_, g) :: rest => flatSize g + flatSizeList rest

end

mutual

/-- Every enumerated combination flattens to exactly one entry per grid
leaf. -/
theorem flatten_length_of_mem : (g : Grid) → (p : ParamTree) →
    p ∈ gridCombinations g → (flattenPT p).length = flatSize g
  | Grid.leaf vs, p, hp => by
      rw [show gridCombinations (Grid.leaf vs) = vs.map ParamTree.leaf from rfl] at hp
      obtain ⟨v, _, rfl⟩ := List.mem_map.mp hp
      rfl
  | Grid.node kvs, p, hp => by
      rw [show gridCombinations (Grid.node kvs) =
            (gridCombinationsList kvs).map ParamTree.node from rfl] at hp
      obtain ⟨ps, hps, rfl⟩ := List.mem_map.mp hp
      exact flattenList_length_of_mem kvs ps hps

/-- Keyed-list part of `flatten_length_of_mem`. -/
theorem flattenList_length_of_mem : (kvs : List (String × Grid)) →
    (ps : List (String × ParamTree)) → ps ∈ gridCombinationsList kvs →
    (flattenPTList ps).length = flatSizeList kvs
  | [], ps, hps => by
      rw [show gridCombinationsList [] = [[]] from rfl] at hps
      rw [List.mem_singleton.mp hps]
      rfl
  | (key, g) :: rest, ps, hps => by
      rw [show gridCombinationsList ((key, g) :: rest) =
            (gridCombinations g).flatMap
              (fun p => (gridCombinationsList rest).map (fun qs => (key, p) :: qs)) from rfl] at hps
      obtain ⟨p, hp, hmem⟩ := List.mem_flatMap.mp hps
      obtain ⟨qs, hqs, rfl⟩ := List.mem_map.mp hmem
      rw [show flattenPTList ((key, p) :: qs) =
            (flattenPT p).map (fun e => (key :: e.1, e.2)) ++ flattenPTList qs from rfl]
      rw [List.length_append, List.length_map, flatten_length_of_mem g p hp,
        flattenList_length_of_mem rest qs hqs]
      rfl

end

mutual

/-- Every enumerated combination has the grid's leaf paths, in order. -/
theorem paths_of_mem : (g : Grid) → (p : ParamTree) → p ∈ gridCombinations g →
    (flattenPT p).map Prod.fst = pathsOf g
  | Grid.leaf vs, p, hp => by
      rw [show gridCombinations (Grid.leaf vs) = vs.map ParamTree.leaf from rfl] at hp
      obtain ⟨v, _, rfl⟩ := List.mem_map.mp hp
      rfl
  | Grid.node kvs, p, hp => by
      rw [show gridCombinations (Grid.node kvs) =
            (gridCombinationsList kvs).map ParamTree.node from rfl] at hp
      obtain ⟨ps, hps, rfl⟩ := List.mem_map.mp hp
      exact pathsList_of_mem kvs ps hps

/-- Keyed-list part of `paths_of_mem`. -/
theorem pathsList_of_mem : (kvs : List (String × Grid)) →
    (ps : List (String × ParamTree)) → ps ∈ gridCombinationsList kvs →
    (flattenPTList ps).map Prod.fst = pathsOfList kvs
  | [], ps, hps => by
      rw [show gridCombinationsList [] = [[]] from rfl] at hps
      rw [List.mem_singleton.mp hps]
      rfl
  | (key, g) :: rest, ps, hps => by
      rw [show gridCombinationsList ((key, g) :: rest) =
            (gridCombinations g).flatMap
              (fun p => (gridCombinationsList rest).map (fun qs => (key, p) :: qs)) from rfl] at hps
      obtain ⟨p, hp, hmem⟩ := List.mem_flatMap.mp hps
      obtain ⟨qs, hqs, rfl⟩ := List.mem_map.mp hmem
      rw [show flattenPTList ((key, p) :: qs) =
            (flattenPT p).map (fun e => (key :: e.1, e.2)) ++ flattenPTList qs from rfl]
      rw [show pathsOfList ((key, g) :: rest) =
            (pathsOf g).map (fun path => key :: path) ++ pathsOfList rest from rfl]
      rw [List.map_append, List.map_map]
      rw [show (Prod.fst ∘ fun e : List String × Val => (key :: e.1, e.2)) =
            (fun path => key :: path) ∘ Prod.fst from rfl]
      rw [← List.map_map, paths_of_mem g p hp, pathsList_of_mem rest qs hqs]

end

/-- Every path of a keyed grid list starts with one of its keys. -/
theorem pathsOfList_heads : (kvs : List (String × Grid)) → ∀ e ∈ pathsOfList kvs,
    ∃ key tail, e = key :: tail ∧ key ∈ kvs.map Prod.fst
  | [], e, he => by cases he
  | (key, g) :: rest, e, he => by
      rw [show pathsOfList ((key, g) :: rest) =
            (pathsOf g).map (fun path => key :: path) ++ pathsOfList rest from rfl] at he
      rcases List.mem_append.mp he with h1 | h2
      · obtain ⟨path, _, rfl⟩ := List.mem_map.mp h1
        exact ⟨key, path, rfl, by simp⟩
      · obtain ⟨key', tail, heq, hmem⟩ := pathsOfList_heads rest e h2
        exact ⟨key', tail, heq, by simp [hmem]⟩

mutual

/-- With distinct keys at every level, the leaf paths of a grid are
pairwise distinct. -/
theorem pathsOf_nodup : (g : Grid) → keysNodup g = true → (pathsOf g).Nodup
  | Grid.leaf _, _ => List.nodup_singleton _
  | Grid.node kvs, h => by
      rw [show keysNodup (Grid.node kvs) =
            (decide (kvs.map Prod.fst).Nodup && keysNodupList kvs) from rfl] at h
      obtain ⟨h1, h2⟩ := Bool.and_eq_true_iff.mp h
      exact pathsOfList_nodup kvs (of_decide_eq_true h1) h2

/-- Keyed-list part of `pathsOf_nodup`. -/
theorem pathsOfList_nodup : (kvs : List (String × Grid)) →
    (kvs.map Prod.fst).Nodup → keysNodupList kvs = true → (pathsOfList kvs).Nodup
  | [], _, _ => List.nodup_nil
  | (key, g) :: rest, hkeys, h => by
      rw [show keysNodupList ((key, g) :: rest) =
            (keysNodup g && keysNodupList rest) from rfl] at h
      obtain ⟨h1, h2⟩ := Bool.and_eq_true_iff.mp h
      rw [List.map_cons] at hkeys
      obtain ⟨hknot, hktail⟩ := List.nodup_cons.mp hkeys
      rw [show pathsOfList ((key, g) :: rest) =
            (pathsOf g).map (fun path => key :: path) ++ pathsOfList rest from rfl]
      refine List.Nodup.append ?_ (pathsOfList_nodup rest hktail h2) ?_
      · refine (pathsOf_nodup g h1).map ?_
        intro a b hab
        exact (List.cons.injEq key a key b ▸ hab).2
      · intro e he1 he2
        obtain ⟨path, _, rfl⟩ := List.mem_map.mp he1
        obtain ⟨key', tail, heq, hmem⟩ := pathsOfList_heads rest _ he2
        rw [List.cons.injEq] at heq
        exact hknot (heq.1 ▸ hmem)

end

/-- Prefixing a fixed key to the path component is injective. -/
theorem prefix_entry_injective (key : String) :
    Function.Injective (fun e : List String × Val => (key :: e.1, e.2)) := by
  intro a b hab
  obtain ⟨a1, a2⟩ := a
  obtain ⟨b1, b2⟩ := b
  simp only [Prod.mk.injEq, List.cons.injEq] at hab
  simp [hab.1.2, hab.2]

mutual

/-- Flattening is injective on the combinations enumerated from one
grid. -/
theorem flatten_inj_of_mem : (g : Grid) → (p q : ParamTree) →
    p ∈ gridCombinations g → q ∈ gridCombinations g →
    flattenPT p = flattenPT q → p = q
  | Grid.leaf vs, p, q, hp, hq, hfl => by
      rw [show gridCombinations (Grid.leaf vs) = vs.map ParamTree.leaf from rfl] at hp hq
      obtain ⟨v, _, rfl⟩ := List.mem_map.mp hp
      obtain ⟨w, _, rfl⟩ := List.mem_map.mp hq
      rw [show flattenPT (ParamTree.leaf v) = [([], v)] from rfl,
        show flattenPT (ParamTree.leaf w) = [([], w)] from rfl] at hfl
      simp only [List.cons.injEq, Prod.mk.injEq] at hfl
      rw [hfl.1.2]
  | Grid.node kvs, p, q, hp, hq, hfl => by
      rw [show gridCombinations (Grid.node kvs) =
            (gridCombinationsList kvs).map ParamTree.node from rfl] at hp hq
      obtain ⟨ps, hps, rfl⟩ := List.mem_map.mp hp
      obtain ⟨qs, hqs, rfl⟩ := List.mem_map.mp hq
      rw [flattenList_inj_of_mem kvs ps qs hps hqs hfl]

/-- Keyed-list part of `flatten_inj_of_mem`. -/
theorem flattenList_inj_of_mem : (kvs : List (String × Grid)) →
    (ps qs : List (String × ParamTree)) →
    ps ∈ gridCombinationsList kvs → qs ∈ gridCombinationsList kvs →
    flattenPTList ps = flattenPTList qs → ps = qs
  | [], ps, qs, hps, hqs, _ => by
      rw [show gridCombinationsList [] = [[]] from rfl] at hps hqs
      rw [List.mem_singleton.mp hps, List.mem_singleton.mp hqs]
  | (key, g) :: rest, ps, qs, hps, hqs, hfl => by
      rw [show gridCombinationsList ((key, g) :: rest) =
            (gridCombinations g).flatMap
              (fun p => (gridCombinationsList rest).map (fun l => (key, p) :: l)) from rfl]
        at hps hqs
      obtain ⟨p, hp, hmemp⟩ := List.mem_flatMap.mp hps
      obtain ⟨ps', hps', rfl⟩ := List.mem_map.mp hmemp
      obtain ⟨q, hq, hmemq⟩ := List.mem_flatMap.mp hqs
      obtain ⟨qs', hqs', rfl⟩ := List.mem_map.mp hmemq
      rw [show flattenPTList ((key, p) :: ps') =
            (flattenPT p).map (fun e => (key :: e.1, e.2)) ++ flattenPTList ps' from rfl,
        show flattenPTList ((key, q) :: qs') =
            (flattenPT q).map (fun e => (key :: e.1, e.2)) ++ flattenPTList qs' from rfl] at hfl
      have hlen : ((flattenPT p).map (fun e : List String × Val => (key :: e.1, e.2))).length =
          ((flattenPT q).map (fun e : List String × Val => (key :: e.1, e.2))).length := by
        rw [List.length_map, List.length_map, flatten_length_of_mem g p hp,
          flatten_length_of_mem g q hq]
      obtain ⟨hA, hB⟩ := List.append_inj hfl hlen
      have hpq : p = q :=
        flatten_inj_of_mem g p q hp hq
          ((List.map_injective_iff.mpr (prefix_entry_injective key)) hA)
      have hps'qs' : ps' = qs' := flattenList_inj_of_mem rest ps' qs' hps' hqs' hB
      rw [hpq, hps'qs']

end

/-- Two association lists with the same duplicate-free key sequence that
are permutations of each other are equal. -/
theorem assoc_perm_eq {α β : Type} :
    ∀ l₁ l₂ : List (α × β), l₁.map Prod.fst = l₂.map Prod.fst →
      (l₁.map Prod.fst).Nodup → l₁.Perm l₂ → l₁ = l₂
  | [], l₂, hmap, _, _ => by
      rw [List.map_eq_nil_iff.mp hmap.symm]
  | (a, b) :: t₁, [], hmap, _, _ => by cases hmap
  | (a, b) :: t₁, (a', b') :: t₂, hmap, hnodup, hperm => by
      simp only [List.map_cons, List.cons.injEq] at hmap
      obtain ⟨ha, htail⟩ := hmap
      subst ha
      obtain ⟨hknot, hktail⟩ := List.nodup_cons.mp hnodup
      have hmem : (a, b) ∈ (a, b') :: t₂ := hperm.mem_iff.mp (List.mem_cons_self _ _)
      rcases List.mem_cons.mp hmem with heq | hmem2
      · obtain ⟨-, hb⟩ := Prod.mk.injEq .. ▸ heq
        subst hb
        rw [assoc_perm_eq t₁ t₂ htail hktail hperm.cons_inv]
      · exfalso
        apply hknot
        rw [htail]
        exact List.mem_map.mpr ⟨(a, b), hmem2, rfl⟩

/-- One step of the param-hash history: keep a combination only if its
hash is new, recording kept hashes, exactly the
`if experiment in param_history: continue / param_history.add / yield`
loop of the enumerator. -/
def dedupByHash {γ β : Type} [DecidableEq β] (hash : γ → β) :
    List γ → List β → List γ
  | [], _ => []
  | p :: rest, seen =>
      if hash p ∈ seen then dedupByHash hash rest seen
      else p :: dedupByHash hash rest (hash p :: seen)

/-- Modelled from the spec (§4.5 Next-hyperparam (grid)) and pinned by
`test_next_hyperparam`: lazily produce the combinations of the expanded
grid (Cartesian product across all list-valued leaves, recursing into
nested dicts), yielding any particular configuration only once — a
combination whose param hash is already in the history is skipped.  (The
test's grid has a raw product of 576 combinations but the test asserts
360 yields, exactly the hash-distinct ones after unused-param removal.)
The param hash is a parameter here: its unused-key tables act on the
`Params` record of the model selector (`_get_param_hash`), while the
enumerator itself works on arbitrary nested dicts. -/
def _next_hyperparam {β : Type} [DecidableEq β] (hash : ParamTree → β)
    (g : Grid) : List ParamTree :=
  dedupByHash hash (gridCombinations g) []

/-- The enumerator's yields are a subsequence of the raw product. -/
theorem dedupByHash_sublist {γ β : Type} [DecidableEq β] (hash : γ → β) :
    ∀ (l : List γ) (seen : List β), (dedupByHash hash l seen).Sublist l
  | [], _ => List.Sublist.refl []
  | p :: rest, seen => by
      rw [show dedupByHash hash (p :: rest) seen =
            (if hash p ∈ seen then dedupByHash hash rest seen
             else p :: dedupByHash hash rest (hash p :: seen)) from rfl]
      by_cases h : hash p ∈ seen
      · rw [if_pos h]
        exact (dedupByHash_sublist hash rest seen).cons p
      · rw [if_neg h]
        exact (dedupByHash_sublist hash rest (hash p :: seen)).cons₂ p

/-- No yield carries a hash already in the history. -/
theorem dedupByHash_not_seen {γ β : Type} [DecidableEq β] (hash : γ → β) :
    ∀ (l : List γ) (seen : List β) (q : γ),
    q ∈ dedupByHash hash l seen → hash q ∉ seen
  | [], _, q, hq => absurd hq (List.not_mem_nil q)
  | p :: rest, seen, q, hq => by
      rw [show dedupByHash hash (p :: rest) seen =
            (if hash p ∈ seen then dedupByHash hash rest seen
             else p :: dedupByHash hash rest (hash p :: seen)) from rfl] at hq
      by_cases h : hash p ∈ seen
      · rw [if_pos h] at hq
        exact dedupByHash_not_seen hash rest seen q hq
      · rw [if_neg h] at hq
        rcases List.mem_cons.mp hq with rfl | hq2
        · exact h
        · exact fun hmem =>
            dedupByHash_not_seen hash rest (hash p :: seen) q hq2
              (List.mem_cons_of_mem _ hmem)

/-- The yields have pairwise-distinct hashes. -/
theorem dedupByHash_map_nodup {γ β : Type} [DecidableEq β] (hash : γ → β) :
    ∀ (l : List γ) (seen : List β), ((dedupByHash hash l seen).map hash).Nodup
  | [], _ => List.nodup_nil
  | p :: rest, seen => by
      rw [show dedupByHash hash (p :: rest) seen =
            (if hash p ∈ seen then dedupByHash hash rest seen
             else p :: dedupByHash hash rest (hash p :: seen)) from rfl]
      by_cases h : hash p ∈ seen
      · rw [if_pos h]
        exact dedupByHash_map_nodup hash rest seen
      · rw [if_neg h]
        rw [List.map_cons, List.nodup_cons]
        refine ⟨?_, dedupByHash_map_nodup hash rest (hash p :: seen)⟩
        intro hmem
        obtain ⟨q, hq, hhq⟩ := List.mem_map.mp hmem
        exact dedupByHash_not_seen hash rest (hash p :: seen) q hq
          (hhq ▸ List.mem_cons_self _ _)

/-- Every hash occurring in the input is either already in the history or
represented among the yields. -/
theorem dedupByHash_complete {γ β : Type} [DecidableEq β] (hash : γ → β) :
    ∀ (l : List γ) (seen : List β) (p : γ), p ∈ l →
    hash p ∈ seen ∨ hash p ∈ (dedupByHash hash l seen).map hash
  | [], _, p, hp => absurd hp (List.not_mem_nil p)
  | c :: rest, seen, p, hp => by
      rw [show dedupByHash hash (c :: rest) seen =
            (if hash c ∈ seen then dedupByHash hash rest seen
             else c :: dedupByHash hash rest (hash c :: seen)) from rfl]
      by_cases h : hash c ∈ seen
      · rw [if_pos h]
        rcases List.mem_cons.mp hp with rfl | hp2
        · exact Or.inl h
        · exact dedupByHash_complete hash rest seen p hp2
      · rw [if_neg h, List.map_cons]
        rcases List.mem_cons.mp hp with rfl | hp2
        · exact Or.inr (List.mem_cons_self _ _)
        · rcases dedupByHash_complete hash rest (hash c :: seen) p hp2 with h2 | h2
          · rcases List.mem_cons.mp h2 with heq | h3
            · exact Or.inr (heq ▸ List.mem_cons_self _ _)
            · exact Or.inl h3
          · exact Or.inr (List.mem_cons_of_mem _ h2)

/-- When the input's hashes are pairwise distinct and fresh, deduplication
is the identity. -/
theorem dedupByHash_of_nodup {γ β : Type} [DecidableEq β] (hash : γ → β) :
    ∀ (l : List γ) (seen : List β), (l.map hash).Nodup →
    (∀ x ∈ l, hash x ∉ seen) → dedupByHash hash l seen = l
  | [], _, _, _ => rfl
  | c :: rest, seen, hnd, hout => by
      rw [List.map_cons, List.nodup_cons] at hnd
      rw [show dedupByHash hash (c :: rest) seen =
            (if hash c ∈ seen then dedupByHash hash rest seen
             else c :: dedupByHash hash rest (hash c :: seen)) from rfl]
      rw [if_neg (hout c (List.mem_cons_self c rest))]
      congr 1
      refine dedupByHash_of_nodup hash rest (hash c :: seen) hnd.2 ?_
      intro x hx hmem
      rcases List.mem_cons.mp hmem with heq | hseen
      · exact hnd.1 (heq ▸ List.mem_map.mpr ⟨x, hx, rfl⟩)
      · exact hout x (List.mem_cons_of_mem c hx) hseen

/-- A grid with a leaf whose candidate list repeats a value. -/
def gridDupEx : Grid := Grid.node [("a", Grid.leaf [Val.int 1, Val.int 1])]

/-- C2 counterexample: for the grid `{a: [1, 1]}` the product of the leaf
sizes is 2, but the enumerator deduplicates by param hash (here the
content hash: no key of this grid is subject to unused-param removal)
and yields only 1 combination — not the claimed product count. -/
theorem claim_C2_counterexample :
    gridSize gridDupEx = 2 ∧
    (_next_hyperparam flattenPT gridDupEx).length = 1 ∧
    ¬ (_next_hyperparam flattenPT gridDupEx).length = gridSize gridDupEx := by
  refine ⟨by decide, by decide, by decide⟩

/-- C2 (amended): for every hyperparameter grid with distinct keys per
sub-dictionary (automatic for Python dicts) and every param hash, the
enumerator `_next_hyperparam` yields a subsequence of the Cartesian
product of the list-valued leaves containing exactly one combination per
distinct param hash occurring in it (every product hash is represented,
none repeats), all yields pairwise distinct by their flattened key-value
sets; when all product combinations have pairwise-distinct hashes the
yields are the whole product, exactly `∏ nᵢ` combinations. -/
theorem claim_C2_amended {β : Type} [DecidableEq β] (hash : ParamTree → β)
    (g : Grid) (hkeys : keysNodup g = true) :
    (_next_hyperparam hash g).Sublist (gridCombinations g) ∧
    ((_next_hyperparam hash g).map hash).Nodup ∧
    (∀ p ∈ gridCombinations g, hash p ∈ (_next_hyperparam hash g).map hash) ∧
    (_next_hyperparam hash g).Pairwise
      (fun p q => ¬ (flattenPT p).Perm (flattenPT q)) ∧
    (((gridCombinations g).map hash).Nodup →
      _next_hyperparam hash g = gridCombinations g ∧
      (_next_hyperparam hash g).length = gridSize g) := by
  have hsub : (_next_hyperparam hash g).Sublist (gridCombinations g) :=
    dedupByHash_sublist hash (gridCombinations g) []
  have hnodup : ((_next_hyperparam hash g).map hash).Nodup :=
    dedupByHash_map_nodup hash (gridCombinations g) []
  refine ⟨hsub, hnodup, ?_, ?_, ?_⟩
  · intro p hp
    rcases dedupByHash_complete hash (gridCombinations g) [] p hp with h | h
    · exact absurd h (List.not_mem_nil _)
    · exact h
  · have hpw : (_next_hyperparam hash g).Pairwise (fun p q => hash p ≠ hash q) :=
      (List.pairwise_map.mp hnodup)
    refine List.Pairwise.imp_of_mem ?_ hpw
    intro p q hp hq hne hperm
    apply hne
    have hpc : p ∈ gridCombinations g := hsub.subset hp
    have hqc : q ∈ gridCombinations g := hsub.subset hq
    have hmapeq : (flattenPT p).map Prod.fst = (flattenPT q).map Prod.fst := by
      rw [paths_of_mem g p hpc, paths_of_mem g q hqc]
    have hpaths : ((flattenPT p).map Prod.fst).Nodup := by
      rw [paths_of_mem g p hpc]
      exact pathsOf_nodup g hkeys
    rw [flatten_inj_of_mem g p q hpc hqc (assoc_perm_eq _ _ hmapeq hpaths hperm)]
  · intro hinj
    have heq : _next_hyperparam hash g = gridCombinations g :=
      dedupByHash_of_nodup hash (gridCombinations g) [] hinj
        (fun x _ => List.not_mem_nil _)
    exact ⟨heq, by rw [heq, gridCombinations_length g]⟩

/-- A duplicate-free two-leaf grid with one nested sub-dictionary,
mirroring the shape of the grid of `test_next_hyperparam`. -/
def gridWitnessEx : Grid :=
  Grid.node
    [("k", Grid.leaf [Val.int 100, Val.int 200]),
     ("optimizer_params",
       Grid.node [("lr", Grid.leaf [Val.int 1, Val.int 2, Val.int 3])])]

/-- Witness for the amended C2 at a concrete nested grid (leaf sizes 2
and 3) with the content hash: the yields are the full product of 6,
pairwise distinct. -/
theorem claim_C2_amended_witness :
    keysNodup gridWitnessEx = true ∧
    ((_next_hyperparam flattenPT gridWitnessEx).Sublist
        (gridCombinations gridWitnessEx) ∧
      ((_next_hyperparam flattenPT gridWitnessEx).map flattenPT).Nodup ∧
      (∀ p ∈ gridCombinations gridWitnessEx,
        flattenPT p ∈ (_next_hyperparam flattenPT gridWitnessEx).map flattenPT) ∧
      (_next_hyperparam flattenPT gridWitnessEx).Pairwise
        (fun p q => ¬ (flattenPT p).Perm (flattenPT q)) ∧
      (((gridCombinations gridWitnessEx).map flattenPT).Nodup →
        _next_hyperparam flattenPT gridWitnessEx = gridCombinations gridWitnessEx ∧
        (_next_hyperparam flattenPT gridWitnessEx).length = gridSize gridWitnessEx)) ∧
    (_next_hyperparam flattenPT gridWitnessEx).length = 6 :=
  ⟨by decide, claim_C2_amended flattenPT gridWitnessEx (by decide), by decide⟩

section TrainTestSplit

variable {α : Type} [DecidableEq α]

/-- Occurrences of `e` as a subject in `X`. -/
def sCount (X : List (α × α × α)) (e : α) : ℕ :=
  X.countP (fun t => decide (t.1 = e))

/-- Occurrences of `e` as a relation in `X`. -/
def rCount (X : List (α × α × α)) (e : α) : ℕ :=
  X.countP (fun t => decide (t.2.1 = e))

/-- Occurrences of `e` as an object in `X`. -/
def oCount (X : List (α × α × α)) (e : α) : ℕ :=
  X.countP (fun t => decide (t.2.2 = e))

/-- Remove the first occurrence of `c`. -/
def eraseFirst : List (α × α × α) → (α × α × α) → List (α × α × α)
  | [], _ => []
  | x :: xs, c => if x = c then xs else x :: eraseFirst xs c

/-- A triple may move from train to test only while its subject, relation
and object each still occur at least twice in the remaining training set,
so that one occurrence survives the move. -/
def movable (train : List (α × α × α)) (t : α × α × α) : Bool :=
  decide (2 ≤ sCount train t.1) && decide (2 ≤ rCount train t.2.1) &&
    decide (2 ≤ oCount train t.2.2)

/-- Modelled from the spec (§7, §8 Splitting): the sampling loop of
`train_test_split_no_unseen`.  The seeded random candidate draws are
abstracted as the explicit candidate stream `sel`; each candidate is moved
to the test set iff it is still in train and `movable`.  The loop stops
when `need` test triples have been collected or the stream (the
tolerance budget) is exhausted. -/
def splitCore : List (α × α × α) → List (α × α × α) → List (α × α × α) → ℕ →
    List (α × α × α) × List (α × α × α) × ℕ
  | _, train, test, 0 => (train, test, 0)
  | [], train, test, need + 1 => (train, test, need + 1)
  | c :: sel, train, test, need + 1 =>
      if c ∈ train ∧ movable train c = true then
        splitCore sel (eraseFirst train c) (c :: test) need
      else
        splitCore sel train test (need + 1)

/-- Modelled from the spec (§7 Infeasible split errors, §8 Splitting):
run the sampling loop; if it cannot collect `test_size` coverage-
preserving test triples, fail (`none`, the descriptive error) unless
duplication is allowed, in which case the short-fall is filled with
duplicates so a valid-but-larger split is returned. -/
def train_test_split_no_unseen (X : List (α × α × α)) (test_size : ℕ)
    (sel : List (α × α × α)) (allow_duplication : Bool) :
    Option (List (α × α × α) × List (α × α × α)) :=
  let res := splitCore sel X [] test_size
  if res.2.2 = 0 then some (res.1, res.2.1)
  else if allow_duplication then
    match res.1 with
    | [] => none
    | t₀ :: _ => some (res.1, res.2.1 ++ List.replicate res.2.2 t₀)
  else none

/-- The entities (subjects and objects) of a triple set. -/
def entsOf (X : List (α × α × α)) : List α :=
  X.map (fun t => t.1) ++ X.map (fun t => t.2.2)

/-- The relations of a triple set. -/
def relsOf (X : List (α × α × α)) : List α :=
  X.map (fun t => t.2.1)

/-- Every entity and relation appearing in test also appears in train. -/
def no_unseen (train test : List (α × α × α)) : Prop :=
  (∀ e ∈ entsOf test, e ∈ entsOf train) ∧ (∀ r ∈ relsOf test, r ∈ relsOf train)

/-- Loop invariant: each position of every test triple still occurs in
the training set. -/
def SplitInv (train test : List (α × α × α)) : Prop :=
  ∀ t ∈ test, 1 ≤ sCount train t.1 ∧ 1 ≤ rCount train t.2.1 ∧ 1 ≤ oCount train t.2.2

/-- Removing a present element is, up to permutation, removing the head. -/
theorem perm_cons_eraseFirst : {l : List (α × α × α)} → {c : α × α × α} →
    c ∈ l → l.Perm (c :: eraseFirst l c)
  | x :: xs, c, hc => by
      rw [eraseFirst]
      by_cases hxc : x = c
      · rw [if_pos hxc, hxc]
      · rw [if_neg hxc]
        have hcxs : c ∈ xs := by
          rcases List.mem_cons.mp hc with h | h
          · exact absurd h.symm hxc
          · exact h
        exact ((perm_cons_eraseFirst hcxs).cons x).trans (List.Perm.swap c x _)

/-- Erasing one triple keeps a positive positional count, provided the
erased triple's own position matched at least twice. -/
theorem count_one_le_eraseFirst (f : (α × α × α) → α) (train : List (α × α × α))
    (c : α × α × α) (hc : c ∈ train) (e : α)
    (h : if f c = e then 2 ≤ train.countP (fun t => decide (f t = e))
         else 1 ≤ train.countP (fun t => decide (f t = e))) :
    1 ≤ (eraseFirst train c).countP (fun t => decide (f t = e)) := by
  have hperm := perm_cons_eraseFirst hc
  by_cases hfc : f c = e
  · rw [if_pos hfc] at h
    have heq : train.countP (fun t => decide (f t = e)) =
        (eraseFirst train c).countP (fun t => decide (f t = e)) + 1 := by
      rw [hperm.countP_eq, List.countP_cons]
      simp [hfc]
    omega
  · rw [if_neg hfc] at h
    have heq : train.countP (fun t => decide (f t = e)) =
        (eraseFirst train c).countP (fun t => decide (f t = e)) := by
      rw [hperm.countP_eq, List.countP_cons]
      simp [hfc]
    omega

/-- Moving a movable triple from train to test preserves the split
invariant. -/
theorem splitInv_step {train test : List (α × α × α)} {c : α × α × α}
    (hInv : SplitInv train test) (hc : c ∈ train)
    (hmov : movable train c = true) : SplitInv (eraseFirst train c) (c :: test) := by
  rw [movable, Bool.and_eq_true_iff, Bool.and_eq_true_iff] at hmov
  obtain ⟨⟨hs, hr⟩, ho⟩ := hmov
  have hs2 : 2 ≤ sCount train c.1 := of_decide_eq_true hs
  have hr2 : 2 ≤ rCount train c.2.1 := of_decide_eq_true hr
  have ho2 : 2 ≤ oCount train c.2.2 := of_decide_eq_true ho
  intro t ht
  rcases List.mem_cons.mp ht with rfl | ht2
  · exact ⟨count_one_le_eraseFirst (fun u => u.1) train t hc t.1 (by rw [if_pos rfl]; exact hs2),
      count_one_le_eraseFirst (fun u => u.2.1) train t hc t.2.1 (by rw [if_pos rfl]; exact hr2),
      count_one_le_eraseFirst (fun u => u.2.2) train t hc t.2.2 (by rw [if_pos rfl]; exact ho2)⟩
  · obtain ⟨h1, h2, h3⟩ := hInv t ht2
    refine ⟨count_one_le_eraseFirst (fun u => u.1) train c hc t.1 ?_,
      count_one_le_eraseFirst (fun u => u.2.1) train c hc t.2.1 ?_,
      count_one_le_eraseFirst (fun u => u.2.2) train c hc t.2.2 ?_⟩
    · by_cases hce : c.1 = t.1
      · rw [if_pos hce]
        exact hce ▸ hs2
      · rw [if_neg hce]
        exact h1
    · by_cases hce : c.2.1 = t.2.1
      · rw [if_pos hce]
        exact hce ▸ hr2
      · rw [if_neg hce]
        exact h2
    · by_cases hce : c.2.2 = t.2.2
      · rw [if_pos hce]
        exact hce ▸ ho2
      · rw [if_neg hce]
        exact h3

end TrainTestSplit

section TrainTestSplitSpec

variable {α : Type} [DecidableEq α]

/-- Soundness of the sampling loop: the invariant is preserved, the total
number of triples is conserved, and the outstanding need plus collected
test triples is conserved. -/
theorem splitCore_spec (sel : List (α × α × α)) :
    ∀ (train test : List (α × α × α)) (need : ℕ) (tr te : List (α × α × α)) (nd : ℕ),
    splitCore sel train test need = (tr, te, nd) → SplitInv train test →
    SplitInv tr te ∧ tr.length + te.length = train.length + test.length ∧
      nd + te.length = need + test.length := by
  induction sel with
  | nil =>
      intro train test need tr te nd heq hInv
      cases need with
      | zero =>
          rw [show splitCore ([] : List (α × α × α)) train test 0 =
                (train, test, 0) from rfl] at heq
          cases heq
          exact ⟨hInv, rfl, rfl⟩
      | succ k =>
          rw [show splitCore ([] : List (α × α × α)) train test (k + 1) =
                (train, test, k + 1) from rfl] at heq
          cases heq
          exact ⟨hInv, rfl, rfl⟩
  | cons c sel ih =>
      intro train test need tr te nd heq hInv
      cases need with
      | zero =>
          rw [show splitCore (c :: sel) train test 0 = (train, test, 0) from rfl] at heq
          cases heq
          exact ⟨hInv, rfl, rfl⟩
      | succ k =>
          rw [show splitCore (c :: sel) train test (k + 1) =
                (if c ∈ train ∧ movable train c = true then
                  splitCore sel (eraseFirst train c) (c :: test) k
                 else splitCore sel train test (k + 1)) from rfl] at heq
          by_cases hmv : c ∈ train ∧ movable train c = true
          · rw [if_pos hmv] at heq
            obtain ⟨hI, hlen, hneed⟩ :=
              ih _ _ _ _ _ _ heq (splitInv_step hInv hmv.1 hmv.2)
            have hlen_erase : (eraseFirst train c).length + 1 = train.length := by
              have h := (perm_cons_eraseFirst hmv.1).length_eq
              rw [List.length_cons] at h
              omega
            refine ⟨hI, ?_, ?_⟩
            · rw [hlen, List.length_cons]
              omega
            · rw [hneed, List.length_cons]
              omega
          · rw [if_neg hmv] at heq
            exact ih _ _ _ _ _ _ heq hInv

/-- The split invariant implies entity/relation coverage. -/
theorem splitInv_no_unseen {train test : List (α × α × α)}
    (hInv : SplitInv train test) : no_unseen train test := by
  constructor
  · intro e he
    rw [entsOf, List.mem_append] at he
    rcases he with h | h
    · obtain ⟨t, ht, rfl⟩ := List.mem_map.mp h
      obtain ⟨h1, -, -⟩ := hInv t ht
      obtain ⟨u, hu, hup⟩ := List.countP_pos_iff.mp h1
      rw [entsOf, List.mem_append]
      exact Or.inl (List.mem_map.mpr ⟨u, hu, of_decide_eq_true hup⟩)
    · obtain ⟨t, ht, rfl⟩ := List.mem_map.mp h
      obtain ⟨-, -, h3⟩ := hInv t ht
      obtain ⟨u, hu, hup⟩ := List.countP_pos_iff.mp h3
      rw [entsOf, List.mem_append]
      exact Or.inr (List.mem_map.mpr ⟨u, hu, of_decide_eq_true hup⟩)
  · intro r hr
    obtain ⟨t, ht, rfl⟩ := List.mem_map.mp hr
    obtain ⟨-, h2, -⟩ := hInv t ht
    obtain ⟨u, hu, hup⟩ := List.countP_pos_iff.mp h2
    exact List.mem_map.mpr ⟨u, hu, of_decide_eq_true hup⟩

omit [DecidableEq α] in
/-- Padding the test set with duplicates of a training triple preserves
coverage. -/
theorem no_unseen_fill {tr te : List (α × α × α)} {t₀ : α × α × α}
    (h : no_unseen tr te) (ht₀ : t₀ ∈ tr) (n : ℕ) :
    no_unseen tr (te ++ List.replicate n t₀) := by
  obtain ⟨he, hrel⟩ := h
  constructor
  · intro e hee
    rw [entsOf, List.map_append, List.map_append, List.mem_append] at hee
    rcases hee with h1 | h1 <;> rw [List.mem_append] at h1
    · rcases h1 with h2 | h2
      · exact he e (by rw [entsOf, List.mem_append]; exact Or.inl h2)
      · obtain ⟨u, hu, rfl⟩ := List.mem_map.mp h2
        rw [List.eq_of_mem_replicate hu, entsOf, List.mem_append]
        exact Or.inl (List.mem_map.mpr ⟨t₀, ht₀, rfl⟩)
    · rcases h1 with h2 | h2
      · exact he e (by rw [entsOf, List.mem_append]; exact Or.inr h2)
      · obtain ⟨u, hu, rfl⟩ := List.mem_map.mp h2
        rw [List.eq_of_mem_replicate hu, entsOf, List.mem_append]
        exact Or.inr (List.mem_map.mpr ⟨t₀, ht₀, rfl⟩)
  · intro r hrr
    rw [relsOf, List.map_append, List.mem_append] at hrr
    rcases hrr with h1 | h1
    · exact hrel r h1
    · obtain ⟨u, hu, rfl⟩ := List.mem_map.mp h1
      rw [List.eq_of_mem_replicate hu, relsOf]
      exact List.mem_map.mpr ⟨t₀, ht₀, rfl⟩

end TrainTestSplitSpec


/-- The duplication fallback: pad the test set with copies of a
training triple. -/
def dupFill {α : Type} (tr te : List (α × α × α)) (nd : ℕ) :
    Option (List (α × α × α) × List (α × α × α)) :=
  match tr with
  | [] => none
  | t₀ :: _ => some (tr, te ++ List.replicate nd t₀)

/-- Unfolding equation for `train_test_split_no_unseen` in terms of the
sampling loop's result. -/
theorem train_test_split_eq {α : Type} [DecidableEq α]
    (X : List (α × α × α)) (ts : ℕ) (sel : List (α × α × α)) (dup : Bool)
    (tr te : List (α × α × α)) (nd : ℕ) (h : splitCore sel X [] ts = (tr, te, nd)) :
    train_test_split_no_unseen X ts sel dup =
      if nd = 0 then some (tr, te)
      else if dup then dupFill tr te nd
      else none := by
  unfold train_test_split_no_unseen
  rw [h]
  rfl

/-- The 7-triple toy graph of `test_train_test_split`. -/
def toySplitX : List (String × String × String) :=
  [("a", "y", "b"), ("a", "y", "c"), ("c", "y", "a"), ("d", "y", "e"),
   ("e", "y", "f"), ("f", "y", "c"), ("f", "y", "c")]

/-- The candidate stream modelling the seed-0 draws of
`test_train_test_split` (which selects `[a,y,c]` and `[f,y,c]`). -/
def toySplitSel : List (String × String × String) :=
  [("a", "y", "c"), ("f", "y", "c")]

/-- C7: on the 7-triple toy graph a split of test size 2 places exactly 2
triples in test and 5 in train with all test entities and relations also
in train; in general every successful no-duplication split has exactly
the requested test size, conserves the triples, and preserves coverage
(so an infeasible request can only error), and when the sampler fails,
allowing duplication yields a valid split whose total size exceeds the
input's. -/
theorem claim_C7_train_test_split (X : List (String × String × String)) (ts : ℕ)
    (sel : List (String × String × String)) (hts : 0 < ts ∧ ts ≤ X.length) :
    (train_test_split_no_unseen toySplitX 2 toySplitSel false =
        some ([("a", "y", "b"), ("c", "y", "a"), ("d", "y", "e"), ("e", "y", "f"),
               ("f", "y", "c")],
              [("f", "y", "c"), ("a", "y", "c")]) ∧
      (∀ tr te, train_test_split_no_unseen toySplitX 2 toySplitSel false = some (tr, te) →
        te.length = 2 ∧ tr.length = 5 ∧ no_unseen tr te)) ∧
    (∀ tr te, train_test_split_no_unseen X ts sel false = some (tr, te) →
      te.length = ts ∧ tr.length + te.length = X.length ∧ no_unseen tr te) ∧
    (train_test_split_no_unseen X ts sel false = none →
      ∃ tr te, train_test_split_no_unseen X ts sel true = some (tr, te) ∧
        te.length = ts ∧ X.length < tr.length + te.length ∧ no_unseen tr te) := by
  obtain ⟨hts1, hts2⟩ := hts
  have hb1 : ∀ (Y : List (String × String × String)) (n : ℕ)
      (s : List (String × String × String)) (tr te : List (String × String × String)),
      train_test_split_no_unseen Y n s false = some (tr, te) →
      te.length = n ∧ tr.length + te.length = Y.length ∧ no_unseen tr te := by
    intro Y n s tr te heq
    rcases hsc : splitCore s Y ([] : List (String × String × String)) n with ⟨tr', te', nd⟩
    obtain ⟨hI, hlen, hneed⟩ :=
      splitCore_spec s Y [] n tr' te' nd hsc (fun t ht => absurd ht (List.not_mem_nil t))
    simp only [List.length_nil, Nat.add_zero] at hlen hneed
    rw [train_test_split_eq Y n s false tr' te' nd hsc] at heq
    by_cases hnd : nd = 0
    · rw [if_pos hnd] at heq
      obtain ⟨rfl, rfl⟩ := Prod.mk.injEq .. ▸ Option.some.injEq .. ▸ heq
      exact ⟨by omega, by omega, splitInv_no_unseen hI⟩
    · rw [if_neg hnd] at heq
      simp only [Bool.false_eq_true, if_false] at heq
      cases heq
  refine ⟨⟨?_, ?_⟩, fun tr te heq => hb1 X ts sel tr te heq, ?_⟩
  · decide
  · intro tr te heq
    obtain ⟨h1, h2, h3⟩ := hb1 toySplitX 2 toySplitSel tr te heq
    refine ⟨h1, ?_, h3⟩
    rw [show toySplitX.length = 7 from rfl] at h2
    omega
  · intro hnone
    rcases hsc : splitCore sel X ([] : List (String × String × String)) ts with ⟨tr', te', nd⟩
    obtain ⟨hI, hlen, hneed⟩ :=
      splitCore_spec sel X [] ts tr' te' nd hsc (fun t ht => absurd ht (List.not_mem_nil t))
    simp only [List.length_nil, Nat.add_zero] at hlen hneed
    rw [train_test_split_eq X ts sel false tr' te' nd hsc] at hnone
    rw [train_test_split_eq X ts sel true tr' te' nd hsc]
    by_cases hnd : nd = 0
    · rw [if_pos hnd] at hnone
      cases hnone
    · rw [if_neg hnd] at hnone ⊢
      rw [if_pos rfl]
      rcases htr : tr' with _ | ⟨t₀, rest⟩
      · rw [htr] at hlen
        simp only [List.length_nil, Nat.zero_add] at hlen
        omega
      · refine ⟨t₀ :: rest, te' ++ List.replicate nd t₀, rfl, ?_, ?_, ?_⟩
        · rw [List.length_append, List.length_replicate]
          omega
        · rw [List.length_append, List.length_replicate, List.length_cons]
          rw [htr, List.length_cons] at hlen
          omega
        · exact no_unseen_fill (splitInv_no_unseen (htr ▸ hI))
            (List.mem_cons_self t₀ rest) nd

/-- Witness for C7 at the single-triple graph `[[a,y,b]]` with test size
1: the hypotheses hold, the toy split succeeds as specified, and (as the
no-duplication split fails there) duplication yields a valid larger
split. -/
theorem claim_C7_train_test_split_witness :
    (0 < 1 ∧ 1 ≤ ([("a", "y", "b")] : List (String × String × String)).length) ∧
    ((train_test_split_no_unseen toySplitX 2 toySplitSel false =
        some ([("a", "y", "b"), ("c", "y", "a"), ("d", "y", "e"), ("e", "y", "f"),
               ("f", "y", "c")],
              [("f", "y", "c"), ("a", "y", "c")]) ∧
      (∀ tr te, train_test_split_no_unseen toySplitX 2 toySplitSel false = some (tr, te) →
        te.length = 2 ∧ tr.length = 5 ∧ no_unseen tr te)) ∧
    (∀ tr te, train_test_split_no_unseen [("a", "y", "b")] 1 [("a", "y", "b")] false =
        some (tr, te) →
      te.length = 1 ∧
        tr.length + te.length = ([("a", "y", "b")] : List (String × String × String)).length ∧
        no_unseen tr te) ∧
    (train_test_split_no_unseen [("a", "y", "b")] 1 [("a", "y", "b")] false = none →
      ∃ tr te, train_test_split_no_unseen [("a", "y", "b")] 1 [("a", "y", "b")] true =
          some (tr, te) ∧
        te.length = 1 ∧
          ([("a", "y", "b")] : List (String × String × String)).length <
            tr.length + te.length ∧
          no_unseen tr te)) :=
  ⟨⟨by decide, by decide⟩,
    claim_C7_train_test_split [("a", "y", "b")] 1 [("a", "y", "b")] ⟨by decide, by decide⟩⟩
